import Mathlib

/-!
Verification of the parsing-and-aggregation core of the `splitterPinaka`
repository (React front end, files `App.jsx`, `Summary.jsx`, `DataTable.jsx`).

The JavaScript code is shallowly embedded: JS numbers are modelled as `JSNum`
(an exact rational together with the special values `NaN`, `Infinity`,
`-Infinity`; binary floating point rounding is not modelled, the arithmetic
appearing in the code is exact on the decimal inputs it handles), strings as
Lean `String`/`List Char`, and the scalar values that may flow into the
amount fields as `JSVal` (null, undefined, string or number).
-/

namespace Splitter

/-- The decimal digit characters, i.e. the character class `\d` = `[0-9]`
of the JavaScript regular expressions used by the code. -/
def digitChars : List Char := ['0', '1', '2', '3', '4', '5', '6', '7', '8', '9']

/-- `\d` of the JS regexes in `App.jsx` / `DataTable.jsx`. -/
def isDigitCh (c : Char) : Bool := digitChars.contains c

/-- A JS word character (`\w` = `[A-Za-z0-9_]`), which is what the
word-boundary assertion `\b` of `/\b\d+\.\d{1,4}\b/` is defined by. -/
def isWordCh (c : Char) : Bool :=
  isDigitCh c || ('a' ≤ c && c ≤ 'z') || ('A' ≤ c && c ≤ 'Z') || c == '_'

/-- JS whitespace (`\s`, `String.prototype.trim`): space, tab, line
terminators, vertical tab, form feed, NBSP, BOM, the Unicode line and
paragraph separators. -/
def jsSpace (c : Char) : Bool :=
  c == ' ' || c == '\t' || c == '\n' || c == '\r' || c == '\x0b' ||
  c == '\x0c' || c == '\u00A0' || c == '\u2028' || c == '\u2029' || c == '\uFEFF'

/-- The character with decimal value `n` (0-9) rendered as a digit. -/
def digitChar (n : ℕ) : Char := Char.ofNat ('0'.toNat + n)

def digitVal (c : Char) : ℕ := c.toNat - '0'.toNat

/-- Value of a digit string, most significant digit first. -/
def digitsToNat (l : List Char) : ℕ := l.foldl (fun acc c => 10 * acc + digitVal c) 0

/-- Decimal digits of a natural number (auxiliary, fuel-driven; `fuel = n + 1`
always suffices since the argument shrinks by a factor of ten each step). -/
def natDigitsAux : ℕ → ℕ → List Char
  | 0, _ => []
  | fuel + 1, n => if n < 10 then [digitChar n] else natDigitsAux fuel (n / 10) ++ [digitChar (n % 10)]

/-- Decimal digits of a natural number, most significant first. -/
def natDigits (n : ℕ) : List Char := natDigitsAux (n + 1) n

/-- Insert a thousands separator every three digits, counting from the right
(input and output reversed). -/
def group3Aux : List Char → List Char
  | d1 :: d2 :: d3 :: d4 :: rest => d1 :: d2 :: d3 :: ',' :: group3Aux (d4 :: rest)
  | l => l

/-- `en-PH` thousands grouping of a digit string, as produced by
`toLocaleString` / `Intl.NumberFormat`. -/
def groupDigits (l : List Char) : List Char := (group3Aux l.reverse).reverse

/-- Exactly `d` decimal digits of `n < 10 ^ d`, most significant first,
left-padded with zeros. -/
def fracDigitsFixed : ℕ → ℕ → List Char
  | 0, _ => []
  | k + 1, n => fracDigitsFixed k (n / 10) ++ [digitChar (n % 10)]

/-- `Math.round(x * 100) / 100`, the 2-decimal (round-half-up) rounding that
`calculateTotalAmount` in `App.jsx` applies; `Math.round x = ⌊x + 1/2⌋` for
finite `x`. -/
def jround2 (q : ℚ) : ℚ := ((⌊q * 100 + 1 / 2⌋ : ℤ) : ℚ) / 100

/-- `parseFloat` value of a matched token `ds "." fs` (all digits). -/
def tokVal (ds fs : List Char) : ℚ :=
  (digitsToNat ds : ℚ) + (digitsToNat fs : ℚ) / (10 : ℚ) ^ fs.length

/-!  The scanner for the global regex `/\b\d+\.\d{1,4}\b/g` of
`calculateTotalAmount` (`App.jsx` line 265).  At a position where the
preceding character is not a word character, the regex matches iff the text
continues with a maximal digit run, a dot, and a maximal digit run of length
1..4 whose following character (if any) is not a word character; the greedy
quantifiers admit no other decomposition because shortening `\d+` makes the
next character a digit instead of the required dot, and shortening `\d{1,4}`
puts a digit (a word character) right after, so `\b` fails. -/

/-- Try to match `\d+\.\d{1,4}\b` at the head of `cs` (the leading `\b` is
checked by the caller).  Returns the integer digits, fraction digits and the
rest of the input after the match. -/
def matchHere (cs : List Char) : Option (List Char × List Char × List Char) :=
  let ds := cs.takeWhile isDigitCh
  let r1 := cs.dropWhile isDigitCh
  if ds.isEmpty then none
  else
    match r1 with
    | '.' :: r2 =>
      let fs := r2.takeWhile isDigitCh
      let r3 := r2.dropWhile isDigitCh
      if fs.isEmpty || 4 < fs.length then none
      else
        match r3 with
        | [] => some (ds, fs, [])
        | c :: _ => if isWordCh c then none else some (ds, fs, r3)
    | _ => none

/-- One left-to-right pass of the global regex, `lastIndex` semantics of
`String.prototype.match` with the `g` flag.  `prevW` records whether the
character before the current position is a word character (for `\b`).
Fuel-driven; `fuel = cs.length` suffices because every step consumes at
least one character. -/
def scanFuel : ℕ → List Char → Bool → List (List Char × List Char)
  | 0, _, _ => []
  | _ + 1, [], _ => []
  | fuel + 1, c :: cs, prevW =>
    if !prevW && isDigitCh c then
      match matchHere (c :: cs) with
      | some (ds, fs, rest) => (ds, fs) :: scanFuel fuel rest true
      | none => scanFuel fuel cs (isWordCh c)
    else scanFuel fuel cs (isWordCh c)

/-- All matches of `/\b\d+\.\d{1,4}\b/g` in a line, in order of appearance. -/
def scanMatches (cs : List Char) : List (List Char × List Char) :=
  scanFuel cs.length cs false

/-- The parsed values of the matches that pass the
`!isNaN(amount) && amount > 0 && amount < 1000000` test of
`calculateTotalAmount` (a matched token always parses, so the `isNaN` test
never rejects), before the 2-decimal rounding. -/
def keptRaw (s : String) : List ℚ :=
  (scanMatches s.data).filterMap fun p =>
    if 0 < tokVal p.1 p.2 ∧ tokVal p.1 p.2 < 1000000 then some (tokVal p.1 p.2) else none

/-- The spec's `extractAmounts`: the kept amounts of a line, each rounded to
2 decimal places, in order of appearance (the per-match body of
`calculateTotalAmount`, `App.jsx` lines 263-277, reified as a list). -/
def extractAmounts (s : String) : List ℚ :=
  (scanMatches s.data).filterMap fun p =>
    if 0 < tokVal p.1 p.2 ∧ tokVal p.1 p.2 < 1000000 then some (jround2 (tokVal p.1 p.2)) else none

/-- `calculateTotalAmount` of `App.jsx` (lines 259-280): fold the rounded
kept amounts of every line into a running total, then round the total once
more to 2 decimal places. -/
def calculateTotalAmount (contents : List String) : ℚ :=
  jround2 (contents.foldl (fun total line =>
    (scanMatches line.data).foldl (fun t p =>
      if 0 < tokVal p.1 p.2 ∧ tokVal p.1 p.2 < 1000000 then t + jround2 (tokVal p.1 p.2) else t)
      total) 0)

/-- `sumAmounts` of the spec is `calculateTotalAmount` on a single line. -/
def sumAmounts (text : String) : ℚ := calculateTotalAmount [text]

/-!  The claim's reading of the extractor (C2): split the text into maximal
runs of digit-or-dot characters ("token boundaries are non-digit/non-dot
characters") and keep the whole tokens of shape `\d+\.\d{1,4}`.  Modelled
from the spec's words, for comparison with `extractAmounts` above. -/

/-- A character the claim counts as part of a token: a digit or a dot. -/
def specTokChar (c : Char) : Bool := isDigitCh c || c == '.'

/-- Split into maximal runs of token characters (`acc` is the current run,
reversed). -/
def splitRunsAux : List Char → List Char → List (List Char)
  | [], acc => if acc.isEmpty then [] else [acc.reverse]
  | c :: cs, acc =>
    if specTokChar c then splitRunsAux cs (c :: acc)
    else if acc.isEmpty then splitRunsAux cs []
    else acc.reverse :: splitRunsAux cs []

def splitRuns (l : List Char) : List (List Char) := splitRunsAux l []

/-- Whole-token test: the entire token is `\d+\.\d{1,4}`. -/
def specShape (l : List Char) : Bool :=
  let ds := l.takeWhile isDigitCh
  match l.dropWhile isDigitCh with
  | '.' :: r => !ds.isEmpty && !r.isEmpty && r.length ≤ 4 && r.all isDigitCh
  | _ => false

/-- Parsed value of a token of shape `\d+\.\d*`. -/
def specTokVal (l : List Char) : ℚ :=
  tokVal (l.takeWhile isDigitCh) ((l.dropWhile isDigitCh).drop 1)

/-- `extractAmounts` as the claim C2 words it ("maximal, non-overlapping,
whole-token match; token boundaries are non-digit/non-dot characters"),
with the same range filter and rounding as the code.  Modelled from the
spec, to be compared with `extractAmounts`. -/
def specExtractAmounts (s : String) : List ℚ :=
  (splitRuns s.data).filterMap fun tok =>
    if specShape tok then
      if 0 < specTokVal tok ∧ specTokVal tok < 1000000 then some (jround2 (specTokVal tok))
      else none
    else none

/-!  The line cleaner `cleanLineContent` (`App.jsx` lines 244-256). -/

/-- The separator replacement: `|`, `^` and `,` each become a single space. -/
def sepToSpace (c : Char) : Char := if c == '|' || c == '^' || c == ',' then ' ' else c

/-- `replace(/\s+/g, ' ')`: every maximal run of whitespace becomes one
space.  `prevSpace` records whether the previous character was part of a
whitespace run already emitted. -/
def collapseAux : Bool → List Char → List Char
  | _, [] => []
  | prevSpace, c :: cs =>
    if jsSpace c then
      if prevSpace then collapseAux true cs else ' ' :: collapseAux true cs
    else c :: collapseAux false cs

/-- Remove trailing JS whitespace (the right half of `trim`). -/
def dropTrail (l : List Char) : List Char :=
  l.foldr (fun c acc => if acc.isEmpty && jsSpace c then [] else c :: acc) []

/-- `String.prototype.trim` on a character list. -/
def jsTrimList (l : List Char) : List Char := dropTrail (l.dropWhile jsSpace)

/-- The character-level pipeline of `cleanLineContent`: separators to
spaces, whitespace runs collapsed, ends trimmed. -/
def cleanData (l : List Char) : List Char :=
  jsTrimList (collapseAux false (l.map sepToSpace))

/-- `cleanLineContent` of `App.jsx`: empty (falsy) input gives the empty
string, otherwise replace separators, collapse whitespace, trim. -/
def cleanLineContent (s : String) : String :=
  if s = "" then "" else String.mk (cleanData s.data)

/-!  JS numbers and scalar values. -/

/-- A JS number: an exact rational, or one of the special values `NaN`,
`Infinity`, `-Infinity` (negative zero is identified with zero; binary
floating point rounding is not modelled). -/
inductive JSNum where
  | num (q : ℚ)
  | nan
  | inf
  | negInf
deriving DecidableEq

/-- IEEE/JS addition on the model. -/
def jsAdd : JSNum → JSNum → JSNum
  | .nan, _ => .nan
  | _, .nan => .nan
  | .num a, .num b => .num (a + b)
  | .inf, .negInf => .nan
  | .negInf, .inf => .nan
  | .inf, _ => .inf
  | _, .inf => .inf
  | .negInf, _ => .negInf
  | _, .negInf => .negInf

/-- IEEE/JS multiplication on the model. -/
def jsMul : JSNum → JSNum → JSNum
  | .nan, _ => .nan
  | _, .nan => .nan
  | .num a, .num b => .num (a * b)
  | .inf, .num b => if 0 < b then .inf else if b < 0 then .negInf else .nan
  | .num a, .inf => if 0 < a then .inf else if a < 0 then .negInf else .nan
  | .negInf, .num b => if 0 < b then .negInf else if b < 0 then .inf else .nan
  | .num a, .negInf => if 0 < a then .negInf else if a < 0 then .inf else .nan
  | .inf, .inf => .inf
  | .negInf, .negInf => .inf
  | .inf, .negInf => .negInf
  | .negInf, .inf => .negInf

/-- IEEE/JS division on the model (division by the single zero behaves as
division by `+0`). -/
def jsDiv : JSNum → JSNum → JSNum
  | .nan, _ => .nan
  | _, .nan => .nan
  | .num a, .num b =>
    if b = 0 then (if a = 0 then .nan else if 0 < a then .inf else .negInf)
    else .num (a / b)
  | .inf, .num b => if b < 0 then .negInf else .inf
  | .negInf, .num b => if b < 0 then .inf else .negInf
  | .num _, .inf => .num 0
  | .num _, .negInf => .num 0
  | .inf, _ => .nan
  | .negInf, _ => .nan

/-- JS `<` on numbers: any comparison with `NaN` is false. -/
def jsLt : JSNum → JSNum → Bool
  | .nan, _ => false
  | _, .nan => false
  | .num a, .num b => decide (a < b)
  | .inf, _ => false
  | _, .inf => true
  | .negInf, .negInf => false
  | .negInf, _ => true
  | _, .negInf => false

/-- A JS scalar value as it may appear in an amount / payment-type field:
null, undefined, a string, or a number. -/
inductive JSVal where
  | jnull
  | jundef
  | jstr (s : String)
  | jnum (n : JSNum)
deriving DecidableEq

/-- JS truthiness test (`!value` is true exactly on falsy values): null,
undefined, the empty string, `0` and `NaN` are falsy. -/
def jsFalsy : JSVal → Bool
  | .jnull => true
  | .jundef => true
  | .jstr s => s == ""
  | .jnum (.num q) => decide (q = 0)
  | .jnum .nan => true
  | .jnum _ => false

/-- Digits appearing after the decimal point of a rational, by long
division on the reduced fraction; stops when the remainder is zero (exact,
with no trailing zeros, whenever the value has a finite decimal expansion,
which is the case for every value the code manipulates), truncated at 20
digits otherwise. -/
def fracDigitsAux : ℕ → ℕ → ℕ → List Char
  | 0, _, _ => []
  | _, 0, _ => []
  | k + 1, r, d => digitChar ((r * 10) / d) :: fracDigitsAux k ((r * 10) % d) d

/-- JS number-to-string conversion for a finite value (minimal decimal
form: no trailing zeros, no decimal point for integers). -/
def ratToString (q : ℚ) : String :=
  let m := |q|
  let ip := m.num.toNat / m.den
  let fd := fracDigitsAux 20 (m.num.toNat % m.den) m.den
  String.mk ((if q < 0 then ['-'] else []) ++ natDigits ip ++
    (if fd.isEmpty then [] else '.' :: fd))

/-- JS `toString` on a scalar value. -/
def jsToString : JSVal → String
  | .jnull => "null"
  | .jundef => "undefined"
  | .jstr s => s
  | .jnum .nan => "NaN"
  | .jnum .inf => "Infinity"
  | .jnum .negInf => "-Infinity"
  | .jnum (.num q) => ratToString q

/-- The decimal-literal part of `parseFloat`, after whitespace, sign and
`Infinity` handling: the longest prefix `digits [. digits] [e [sign] digits]`
(`NaN` when there is no leading digit on either side of the dot). -/
def parseDec (l1 : List Char) : JSNum :=
  let ip := l1.takeWhile isDigitCh
  let r1 := l1.dropWhile isDigitCh
  let fp := if r1.head? = some '.' then (r1.drop 1).takeWhile isDigitCh else []
  let r2 := if r1.head? = some '.' then (r1.drop 1).dropWhile isDigitCh else r1
  if ip.isEmpty && fp.isEmpty then JSNum.nan
  else
    let e : ℤ :=
      if r2.head? = some 'e' ∨ r2.head? = some 'E' then
        let t := r2.drop 1
        let t2 := if t.head? = some '-' ∨ t.head? = some '+' then t.drop 1 else t
        let ed := t2.takeWhile isDigitCh
        if ed.isEmpty then 0
        else if t.head? = some '-' then -(digitsToNat ed : ℤ) else (digitsToNat ed : ℤ)
      else 0
    JSNum.num (((digitsToNat ip : ℚ) + (digitsToNat fp : ℚ) / (10 : ℚ) ^ fp.length)
      * (10 : ℚ) ^ e)

/-- JS `parseFloat`: skip leading whitespace, optional sign, `Infinity`, or
the longest decimal-literal prefix; `NaN` when no prefix parses.  (Overflow
of huge exponents to `Infinity` is not modelled.) -/
def jsParseFloat (s : String) : JSNum :=
  let l := s.data.dropWhile jsSpace
  let sgn : Bool := decide (l.head? = some '-')
  let l1 := if l.head? = some '-' ∨ l.head? = some '+' then l.drop 1 else l
  if l1.take 8 = "Infinity".data then (if sgn then JSNum.negInf else JSNum.inf)
  else
    match parseDec l1 with
    | JSNum.num v => JSNum.num (if sgn then -v else v)
    | x => x

/-!  The currency formatters.  `toLocaleString('en-PH', ...)` and
`Intl.NumberFormat('en-PH', { style: 'currency', currency: 'PHP', ... })`
are modelled as exact decimal rendering with comma thousands-grouping and
the requested fixed number of fraction digits (rounding half away from
zero; `NaN` renders as `NaN`, infinities as `∞`). -/

/-- Digits of `|value|` with exactly `d` fraction digits and thousands
grouping. -/
def fmtAbs (m : ℚ) (d : ℕ) : List Char :=
  let r := (⌊m * (10 : ℚ) ^ d + 1 / 2⌋).toNat
  groupDigits (natDigits (r / 10 ^ d)) ++
    (if d = 0 then [] else '.' :: fracDigitsFixed d (r % 10 ^ d))

/-- `x.toLocaleString('en-PH', { minimumFractionDigits: d,
maximumFractionDigits: d })`. -/
def fmtGrouped (n : JSNum) (d : ℕ) : String :=
  match n with
  | .nan => "NaN"
  | .inf => "∞"
  | .negInf => "-∞"
  | .num q => String.mk ((if q < 0 then ['-'] else []) ++ fmtAbs |q| d)

/-- `Intl.NumberFormat('en-PH', { style: 'currency', currency: 'PHP',
minimumFractionDigits: 2, maximumFractionDigits: 2 }).format`; note that
`format(NaN)` returns `"₱NaN"` — it does not throw. -/
def fmtCurrencyPHP (n : JSNum) : String :=
  match n with
  | .nan => "₱NaN"
  | .inf => "₱∞"
  | .negInf => "-₱∞"
  | .num q => String.mk ((if q < 0 then ['-'] else []) ++ '₱' :: fmtAbs |q| 2)

/-- The strip of `DataTable.jsx` (`isAmount`, `formatAmount`):
`value.toString().trim().replace(/[₱,\s]/g, '')`. -/
def stripDT (s : String) : String :=
  String.mk ((jsTrimList s.data).filter fun c => !(c == '₱' || c == ',' || jsSpace c))

/-- The strip of `Summary.jsx`'s `formatAmount` / `paymentTotals`:
`replace(/[₱,]/g, '')` (no whitespace removal). -/
def stripSummary (s : String) : String :=
  String.mk (s.data.filter fun c => !(c == '₱' || c == ','))

/-- `cleanAmount.split('.')[1]`: the characters between the first and the
second dot. -/
def splitDot1 (l : List Char) : List Char :=
  (((l.dropWhile fun c => !(c == '.')).drop 1).takeWhile fun c => !(c == '.'))

/-- `isAmount` of `DataTable.jsx` (lines 10-23): full-string test
`/^\d+\.\d+$/` after stripping currency symbols, commas and whitespace. -/
def amountShape (l : List Char) : Bool :=
  let ds := l.takeWhile isDigitCh
  match l.dropWhile isDigitCh with
  | '.' :: r => !ds.isEmpty && !r.isEmpty && r.all isDigitCh
  | _ => false

def isAmount (v : JSVal) : Bool :=
  if jsFalsy v then false
  else amountShape (stripDT (jsToString v)).data

/-- `formatAmount` of `DataTable.jsx` (lines 26-70): falsy and NaN-parsing
inputs give `"₱0.00"`; otherwise the number of decimal places of the
cleaned source string selects the rendering (1 place, standard 2-place
currency, or all `dp` places).  `toLocaleString` raises `RangeError` for
more than 20 fraction digits, which the `catch` turns into `"₱0.00"`. -/
def dtFormatAmount (v : JSVal) : String :=
  if jsFalsy v then "₱0.00"
  else
    let cleanAmount := stripDT (jsToString v)
    let numAmount := jsParseFloat cleanAmount
    if numAmount = JSNum.nan then "₱0.00"
    else
      let dp := if '.' ∈ cleanAmount.data then (splitDot1 cleanAmount.data).length else 0
      if dp = 1 then "₱" ++ fmtGrouped numAmount 1
      else if dp = 2 then fmtCurrencyPHP numAmount
      else if dp ≤ 20 then "₱" ++ fmtGrouped numAmount dp
      else "₱0.00"

/-- `formatAmount` of `Summary.jsx` (lines 23-37): falsy inputs give
`"₱0.00"`; strings are parsed after stripping `₱` and commas; the result is
always rendered as 2-decimal `en-PH` currency (`NaN` renders as `"₱NaN"`,
the `Intl` formatter does not throw on it). -/
def sumFormatAmount (v : JSVal) : String :=
  if jsFalsy v then "₱0.00"
  else
    let n := match v with
      | .jstr s => jsParseFloat (stripSummary s)
      | .jnum m => m
      | _ => JSNum.nan
    fmtCurrencyPHP n

/-- Number of characters after the first `.` of a rendered string (0 when
there is no dot). -/
def countFracDigits (s : String) : ℕ :=
  ((s.data.dropWhile fun c => !(c == '.')).drop 1).length

/-!  The payment summary aggregation of `Summary.jsx` (`PaymentSummaryTable`,
lines 60-98). -/

/-- One processed record as consumed by `PaymentSummaryTable`: its
`paymentType` field (a string or null/undefined) and its `amount` field. -/
structure Entry where
  paymentType : Option String
  amount : JSVal
deriving DecidableEq

/-- A per-payment-type accumulator (`totals[type]`). -/
structure Bucket where
  count : ℕ
  amount : JSNum
deriving DecidableEq

/-- One row of the payment summary table. -/
structure Item where
  type : String
  count : ℕ
  amount : JSNum
  percentage : JSNum
deriving DecidableEq

/-- The value of the `paymentTotals` memo. -/
structure Totals where
  items : List Item
  grandTotal : JSNum
deriving DecidableEq

/-- `entry.paymentType || 'Unknown'`: a falsy payment type (null, undefined
or the empty string) falls back to the literal `"Unknown"`. -/
def typeKey (e : Entry) : String :=
  match e.paymentType with
  | some s => if s == "" then "Unknown" else s
  | none => "Unknown"

/-- `parseFloat(entry.amount?.toString().replace(/[₱,]/g, '')) || 0`:
null/undefined short-circuit to `undefined`, `parseFloat(undefined)` is
`NaN`, and `|| 0` turns `NaN` (and `0` itself) into `0`. -/
def parsedAmount (e : Entry) : JSNum :=
  match e.amount with
  | .jnull => JSNum.num 0
  | .jundef => JSNum.num 0
  | v =>
    match jsParseFloat (stripSummary (jsToString v)) with
    | .nan => JSNum.num 0
    | .num q => JSNum.num q
    | x => x

/-- The filter on the selected payment model (`Summary.jsx` lines 70-72):
`'All'` keeps everything, otherwise strict equality
`entry.paymentType === selectedModel` (so a null/undefined payment type
never matches). -/
def filteredEntries (entries : List Entry) (sel : String) : List Entry :=
  if sel == "All" then entries
  else entries.filter fun e =>
    match e.paymentType with
    | some s => s == sel
    | none => false

/-- `totals[type]` upsert: create `{ count: 0, amount: 0 }` on first sight,
then `count += 1; amount += parsed` (insertion order of keys preserved, as
for a JS object with string keys). -/
def addEntryB (ts : List (String × Bucket)) (k : String) (a : JSNum) : List (String × Bucket) :=
  match ts with
  | [] => [(k, ⟨0 + 1, jsAdd (JSNum.num 0) a⟩)]
  | (k', b) :: rest =>
    if k' == k then (k', ⟨b.count + 1, jsAdd b.amount a⟩) :: rest
    else (k', b) :: addEntryB rest k a

/-- Stable insertion for the descending-by-amount sort
(`sort((a, b) => b.amount - a.amount)`; comparisons involving `NaN` keep
the existing order, matching a stable ES2019 sort whose comparator returns
`NaN`, treated as 0). -/
def insertDesc (x : Item) : List Item → List Item
  | [] => [x]
  | y :: ys => if jsLt y.amount x.amount then x :: y :: ys else y :: insertDesc x ys

/-- Stable sort of the summary rows, descending by amount. -/
def sortDesc (l : List Item) : List Item :=
  l.foldl (fun acc x => insertDesc x acc) []

/-- The `paymentTotals` memo of `PaymentSummaryTable` (`Summary.jsx` lines
63-98): filter by the selected model, fold counts/amounts per payment type
and a grand total, then produce the rows with
`percentage = amount / grandTotal * 100` (no special case for a zero grand
total) sorted descending by amount. -/
def paymentTotals (entries : List Entry) (sel : String) : Totals :=
  let fe := filteredEntries entries sel
  let pairs := fe.map fun e => (typeKey e, parsedAmount e)
  let g := pairs.foldl (fun acc p => jsAdd acc p.2) (JSNum.num 0)
  { items := sortDesc ((pairs.foldl (fun ts p => addEntryB ts p.1 p.2) []).map
      fun p => { type := p.1, count := p.2.count, amount := p.2.amount,
                 percentage := jsMul (jsDiv p.2.amount g) (JSNum.num 100) }),
    grandTotal := g }

/- The arithmetic of `Rat` is `@[irreducible]` upstream, which blocks the
kernel evaluation that `decide` relies on; make it unfoldable within this
file so that concrete runs of the embedded code can be computed. -/
attribute [local semireducible] Rat.add Rat.mul Rat.inv Rat.sub

/-- Whether a character list starts with JS whitespace. -/
def headIsSpace : List Char → Bool
  | [] => false
  | c :: _ => jsSpace c

/-- Invariant of collapsed whitespace: every whitespace character is a
single `' '` not followed by further whitespace. -/
def spacesOK : List Char → Bool
  | [] => true
  | c :: cs => (if jsSpace c then c == ' ' && !headIsSpace cs else true) && spacesOK cs

/-!  ## Lemmas about the line cleaner (claim C7) -/

theorem dropTrail_cons (d : Char) (ds : List Char) :
    dropTrail (d :: ds) =
      if (dropTrail ds).isEmpty && jsSpace d then [] else d :: dropTrail ds := rfl

theorem mem_collapseAux {c : Char} :
    ∀ (b : Bool) (l : List Char), c ∈ collapseAux b l → c = ' ' ∨ c ∈ l := by
  intro b l
  induction l generalizing b with
  | nil => intro h; simp [collapseAux] at h
  | cons d ds ih =>
    intro h
    by_cases hd : jsSpace d = true
    · cases b with
      | true =>
        simp only [collapseAux, hd, if_true] at h
        rcases ih true h with h' | h'
        · exact Or.inl h'
        · exact Or.inr (List.mem_cons_of_mem _ h')
      | false =>
        simp only [collapseAux, hd, if_true] at h
        rcases List.mem_cons.mp h with rfl | h'
        · exact Or.inl rfl
        · rcases ih true h' with h'' | h''
          · exact Or.inl h''
          · exact Or.inr (List.mem_cons_of_mem _ h'')
    · simp only [collapseAux, hd, if_false, Bool.false_eq_true] at h
      rcases List.mem_cons.mp h with rfl | h'
      · exact Or.inr (List.mem_cons_self _ _)
      · rcases ih false h' with h'' | h''
        · exact Or.inl h''
        · exact Or.inr (List.mem_cons_of_mem _ h'')

theorem mem_dropTrail {c : Char} : ∀ l : List Char, c ∈ dropTrail l → c ∈ l := by
  intro l
  induction l with
  | nil => intro h; simp [dropTrail] at h
  | cons d ds ih =>
    intro h
    rw [dropTrail_cons] at h
    by_cases hc : ((dropTrail ds).isEmpty && jsSpace d) = true
    · rw [if_pos hc] at h; simp at h
    · rw [if_neg hc] at h
      rcases List.mem_cons.mp h with rfl | h'
      · exact List.mem_cons_self _ _
      · exact List.mem_cons_of_mem _ (ih h')

theorem mem_dropWhileJs {c : Char} {p : Char → Bool} :
    ∀ l : List Char, c ∈ l.dropWhile p → c ∈ l := by
  intro l
  induction l with
  | nil => intro h; simp at h
  | cons d ds ih =>
    intro h
    rw [List.dropWhile_cons] at h
    by_cases hd : p d = true
    · rw [if_pos hd] at h; exact List.mem_cons_of_mem _ (ih h)
    · rw [if_neg hd] at h; exact h

theorem headIsSpace_collapse_true :
    ∀ l : List Char, headIsSpace (collapseAux true l) = false := by
  intro l
  induction l with
  | nil => rfl
  | cons d ds ih =>
    by_cases hd : jsSpace d = true
    · simp only [collapseAux, hd, if_true]; exact ih
    · rw [Bool.not_eq_true] at hd
      simp [collapseAux, hd, headIsSpace]

theorem spacesOK_collapse : ∀ (b : Bool) (l : List Char), spacesOK (collapseAux b l) = true := by
  intro b l
  induction l generalizing b with
  | nil => cases b <;> rfl
  | cons d ds ih =>
    by_cases hd : jsSpace d = true
    · cases b with
      | true => simp only [collapseAux, hd, if_true]; exact ih true
      | false =>
        simp only [collapseAux, hd, if_true, spacesOK]
        have h1 : jsSpace ' ' = true := by decide
        rw [h1]
        simp only [if_true, headIsSpace_collapse_true, Bool.not_false, Bool.and_true]
        simp [ih true]
    · rw [Bool.not_eq_true] at hd
      simp only [collapseAux, hd, Bool.false_eq_true, if_false, spacesOK]
      simp [hd, ih false]

theorem spacesOK_tail {d : Char} {ds : List Char} (h : spacesOK (d :: ds) = true) :
    spacesOK ds = true := by
  simp only [spacesOK, Bool.and_eq_true] at h
  exact h.2

theorem spacesOK_dropWhile {l : List Char} (h : spacesOK l = true) :
    spacesOK (l.dropWhile jsSpace) = true := by
  induction l with
  | nil => simpa using h
  | cons d ds ih =>
    rw [List.dropWhile_cons]
    by_cases hd : jsSpace d = true
    · rw [if_pos hd]; exact ih (spacesOK_tail h)
    · rw [if_neg hd]; exact h

theorem headIsSpace_dropTrail {l : List Char} (h : headIsSpace (dropTrail l) = true) :
    headIsSpace l = true := by
  cases l with
  | nil => simpa [dropTrail] using h
  | cons d ds =>
    rw [dropTrail_cons] at h
    by_cases hc : ((dropTrail ds).isEmpty && jsSpace d) = true
    · rw [if_pos hc] at h; simp [headIsSpace] at h
    · rw [if_neg hc] at h; exact h

theorem spacesOK_dropTrail {l : List Char} (h : spacesOK l = true) :
    spacesOK (dropTrail l) = true := by
  induction l with
  | nil => simpa [dropTrail] using h
  | cons d ds ih =>
    rw [dropTrail_cons]
    by_cases hc : ((dropTrail ds).isEmpty && jsSpace d) = true
    · rw [if_pos hc]; rfl
    · rw [if_neg hc]
      simp only [spacesOK, Bool.and_eq_true] at h ⊢
      refine ⟨?_, ih h.2⟩
      rcases h with ⟨h1, h2⟩
      by_cases hd : jsSpace d = true
      · rw [if_pos hd] at h1 ⊢
        simp only [Bool.and_eq_true, Bool.not_eq_true'] at h1 ⊢
        refine ⟨h1.1, ?_⟩
        by_cases hq : headIsSpace (dropTrail ds) = true
        · exact absurd (headIsSpace_dropTrail hq) (by simp [h1.2])
        · exact Bool.not_eq_true _ ▸ hq
      · rw [if_neg hd]

theorem collapseAux_flag {l : List Char} (h : headIsSpace l = false) (b : Bool) :
    collapseAux b l = collapseAux false l := by
  cases l with
  | nil => rfl
  | cons d ds =>
    have hd : jsSpace d = false := h
    simp [collapseAux, hd]

theorem collapse_id {l : List Char} (h : spacesOK l = true) :
    collapseAux false l = l := by
  induction l with
  | nil => rfl
  | cons d ds ih =>
    simp only [spacesOK, Bool.and_eq_true] at h
    rcases h with ⟨h1, h2⟩
    by_cases hd : jsSpace d = true
    · rw [if_pos hd] at h1
      simp only [Bool.and_eq_true, Bool.not_eq_true'] at h1
      rcases h1 with ⟨hsp, hns⟩
      have hdq : d = ' ' := by
        have := hsp; simpa using this
      simp only [collapseAux, hd, if_true, Bool.false_eq_true, if_false]
      rw [collapseAux_flag hns true, ih h2, hdq]
    · rw [if_neg hd] at h1
      simp only [collapseAux, hd, if_false, Bool.false_eq_true]
      rw [ih h2]

theorem dropWhile_id_of_head {l : List Char} (h : headIsSpace l = false) :
    l.dropWhile jsSpace = l := by
  cases l with
  | nil => rfl
  | cons d ds =>
    have hd : jsSpace d = false := h
    simp [List.dropWhile_cons, hd]

theorem headIsSpace_dropWhile : ∀ l : List Char, headIsSpace (l.dropWhile jsSpace) = false := by
  intro l
  induction l with
  | nil => rfl
  | cons d ds ih =>
    rw [List.dropWhile_cons]
    by_cases hd : jsSpace d = true
    · rw [if_pos hd]; exact ih
    · rw [if_neg hd]; exact Bool.not_eq_true _ ▸ hd

theorem dropTrail_idem : ∀ l : List Char, dropTrail (dropTrail l) = dropTrail l := by
  intro l
  induction l with
  | nil => rfl
  | cons d ds ih =>
    rw [dropTrail_cons]
    by_cases hc : ((dropTrail ds).isEmpty && jsSpace d) = true
    · rw [if_pos hc]; rfl
    · rw [if_neg hc, dropTrail_cons, ih]
      rw [if_neg hc]

theorem mapSelf {f : Char → Char} : ∀ l : List Char, (∀ c ∈ l, f c = c) → l.map f = l := by
  intro l
  induction l with
  | nil => intro _; rfl
  | cons d ds ih =>
    intro h
    simp only [List.map_cons]
    rw [h d (List.mem_cons_self _ _), ih fun c hc => h c (List.mem_cons_of_mem _ hc)]

theorem sepToSpace_idem (c : Char) : sepToSpace (sepToSpace c) = sepToSpace c := by
  by_cases h : (c == '|' || c == '^' || c == ',') = true
  · simp [sepToSpace, h]
  · rw [Bool.not_eq_true] at h
    simp [sepToSpace, h]

theorem cleanData_fixes_chars {l : List Char} {c : Char} (h : c ∈ cleanData l) :
    sepToSpace c = c := by
  have h1 : c ∈ collapseAux false (l.map sepToSpace) := by
    have h2 := mem_dropTrail _ h
    exact mem_dropWhileJs _ h2
  rcases mem_collapseAux false _ h1 with rfl | h2
  · decide
  · rcases List.mem_map.mp h2 with ⟨c', _, rfl⟩
    exact sepToSpace_idem c'

theorem cleanData_idem (l : List Char) : cleanData (cleanData l) = cleanData l := by
  have hok : spacesOK (cleanData l) = true := by
    unfold cleanData jsTrimList
    exact spacesOK_dropTrail (spacesOK_dropWhile (spacesOK_collapse false _))
  have hmap : (cleanData l).map sepToSpace = cleanData l :=
    mapSelf _ fun c hc => cleanData_fixes_chars hc
  have hhead : headIsSpace (cleanData l) = false := by
    unfold cleanData jsTrimList
    by_cases h : headIsSpace (dropTrail ((collapseAux false (l.map sepToSpace)).dropWhile jsSpace)) = true
    · have := headIsSpace_dropTrail h
      rw [headIsSpace_dropWhile] at this
      exact absurd this (by simp)
    · exact Bool.not_eq_true _ ▸ h
  show jsTrimList (collapseAux false ((cleanData l).map sepToSpace)) = cleanData l
  rw [hmap, collapse_id hok]
  unfold jsTrimList
  rw [dropWhile_id_of_head hhead]
  show dropTrail (dropTrail ((collapseAux false (l.map sepToSpace)).dropWhile jsSpace)) = _
  rw [dropTrail_idem]
  rfl

/-- C7: `clean` (the `cleanLineContent` of `App.jsx`) is idempotent:
`clean(clean(s)) = clean(s)` for every string `s`. -/
theorem cleanLineContent_idem (s : String) :
    cleanLineContent (cleanLineContent s) = cleanLineContent s := by
  by_cases h : s = ""
  · subst h; rfl
  · have hs : cleanLineContent s = String.mk (cleanData s.data) := by
      rw [cleanLineContent, if_neg h]
    by_cases h2 : String.mk (cleanData s.data) = ""
    · rw [hs, h2]; rfl
    · rw [hs, cleanLineContent, if_neg h2]
      show String.mk (cleanData (cleanData s.data)) = _
      rw [cleanData_idem]

/-!  ## Lemmas about the amount extractor (claims C2, C3, C4) -/

theorem matchHere_sound {cs ds fs rest : List Char}
    (h : matchHere cs = some (ds, fs, rest)) :
    ds ≠ [] ∧ fs ≠ [] ∧ fs.length ≤ 4 ∧
      (∀ c ∈ ds, isDigitCh c = true) ∧ (∀ c ∈ fs, isDigitCh c = true) := by
  simp only [matchHere] at h
  split at h
  · exact absurd h (by simp)
  · rename_i hne
    split at h
    · rename_i r2 hr1
      split at h
      · exact absurd h (by simp)
      · rename_i hfs
        simp only [Bool.or_eq_true, not_or, List.isEmpty_eq_true, decide_eq_true_eq] at hfs hne
        have hlen : (r2.takeWhile isDigitCh).length ≤ 4 := by
          rcases hfs with ⟨_, h4⟩
          omega
        split at h
        · simp only [Option.some.injEq, Prod.mk.injEq] at h
          obtain ⟨rfl, rfl, _⟩ := h
          exact ⟨hne, hfs.1, hlen,
            fun c hc => List.mem_takeWhile_imp hc, fun c hc => List.mem_takeWhile_imp hc⟩
        · split at h
          · exact absurd h (by simp)
          · simp only [Option.some.injEq, Prod.mk.injEq] at h
            obtain ⟨rfl, rfl, _⟩ := h
            exact ⟨hne, hfs.1, hlen,
              fun c hc => List.mem_takeWhile_imp hc, fun c hc => List.mem_takeWhile_imp hc⟩
    · exact absurd h (by simp)

theorem scanFuel_sound :
    ∀ (fuel : ℕ) (cs : List Char) (b : Bool) (p : List Char × List Char),
      p ∈ scanFuel fuel cs b →
      p.1 ≠ [] ∧ p.2 ≠ [] ∧ p.2.length ≤ 4 ∧
        (∀ c ∈ p.1, isDigitCh c = true) ∧ (∀ c ∈ p.2, isDigitCh c = true) := by
  intro fuel
  induction fuel with
  | zero => intro cs b p h; simp [scanFuel] at h
  | succ n ih =>
    intro cs b p h
    cases cs with
    | nil => simp [scanFuel] at h
    | cons c cs' =>
      simp only [scanFuel] at h
      by_cases hb : (!b && isDigitCh c) = true
      · rw [if_pos hb] at h
        cases hm : matchHere (c :: cs') with
        | none => simp only [hm] at h; exact ih _ _ p h
        | some trip =>
          obtain ⟨ds, fs, rest⟩ := trip
          simp only [hm] at h
          rcases List.mem_cons.mp h with rfl | h'
          · have hs := matchHere_sound hm
            exact ⟨hs.1, hs.2.1, hs.2.2.1, hs.2.2.2.1, hs.2.2.2.2⟩
          · exact ih _ _ p h'
      · rw [if_neg hb] at h; exact ih _ _ p h

theorem extractAmounts_mem {s : String} {a : ℚ} (h : a ∈ extractAmounts s) :
    ∃ ds fs, (ds, fs) ∈ scanMatches s.data ∧ ds ≠ [] ∧ fs ≠ [] ∧ fs.length ≤ 4 ∧
      (∀ c ∈ ds, isDigitCh c = true) ∧ (∀ c ∈ fs, isDigitCh c = true) ∧
      0 < tokVal ds fs ∧ tokVal ds fs < 1000000 ∧ a = jround2 (tokVal ds fs) := by
  unfold extractAmounts at h
  rcases List.mem_filterMap.mp h with ⟨p, hp, hf⟩
  by_cases hc : 0 < tokVal p.1 p.2 ∧ tokVal p.1 p.2 < 1000000
  · rw [if_pos hc] at hf
    have ha : a = jround2 (tokVal p.1 p.2) := (Option.some_inj.mp hf).symm
    have hp' : p ∈ scanFuel s.data.length s.data false := hp
    have hs := scanFuel_sound _ _ _ p hp'
    exact ⟨p.1, p.2, hp, hs.1, hs.2.1, hs.2.2.1, hs.2.2.2.1, hs.2.2.2.2, hc.1, hc.2, ha⟩
  · rw [if_neg hc] at hf; exact absurd hf (by simp)

theorem jround2_bounds {v : ℚ} (h0 : 0 < v) (h1 : v < 1000000) :
    0 ≤ jround2 v ∧ jround2 v ≤ 1000000 := by
  unfold jround2
  constructor
  · apply div_nonneg _ (by norm_num)
    have h2 : (0 : ℤ) ≤ ⌊v * 100 + 1 / 2⌋ := Int.floor_nonneg.mpr (by linarith)
    exact_mod_cast h2
  · have h2 : ⌊v * 100 + 1 / 2⌋ < 100000001 := Int.floor_lt.mpr (by push_cast; linarith)
    have h3 : ⌊v * 100 + 1 / 2⌋ ≤ 100000000 := by omega
    rw [div_le_iff₀ (by norm_num : (0 : ℚ) < 100)]
    calc ((⌊v * 100 + 1 / 2⌋ : ℤ) : ℚ) ≤ ((100000000 : ℤ) : ℚ) := by exact_mod_cast h3
    _ = 1000000 * 100 := by norm_num

theorem inner_foldl (toks : List (List Char × List Char)) :
    ∀ t : ℚ,
      toks.foldl (fun t p =>
          if 0 < tokVal p.1 p.2 ∧ tokVal p.1 p.2 < 1000000 then t + jround2 (tokVal p.1 p.2)
          else t) t
        = t + (toks.filterMap fun p =>
            if 0 < tokVal p.1 p.2 ∧ tokVal p.1 p.2 < 1000000 then some (jround2 (tokVal p.1 p.2))
            else none).sum := by
  induction toks with
  | nil => intro t; simp
  | cons p ps ih =>
    intro t
    simp only [List.foldl_cons, List.filterMap_cons]
    by_cases hc : 0 < tokVal p.1 p.2 ∧ tokVal p.1 p.2 < 1000000
    · rw [if_pos hc, if_pos hc, ih, List.sum_cons]
      ring
    · rw [if_neg hc, if_neg hc, ih]

theorem extractAmounts_eq_map (s : String) : extractAmounts s = (keptRaw s).map jround2 := by
  unfold extractAmounts keptRaw
  rw [List.map_filterMap]
  congr 1
  funext p
  by_cases hc : 0 < tokVal p.1 p.2 ∧ tokVal p.1 p.2 < 1000000
  · rw [if_pos hc, if_pos hc]; rfl
  · rw [if_neg hc, if_neg hc]; rfl

/-- C3: `sumAmounts` (the single-line `calculateTotalAmount` of `App.jsx`)
rounds each individually extracted amount to 2 decimal places before adding
it to the accumulator and then rounds the accumulated sum once more: for
every text the returned total is `round2 (sum of round2 match)`, and the
extracted list is exactly the per-match rounded values. -/
theorem sumAmounts_rounds_each_then_total (text : String) :
    sumAmounts text = jround2 (((keptRaw text).map jround2).sum)
      ∧ extractAmounts text = (keptRaw text).map jround2 := by
  refine ⟨?_, extractAmounts_eq_map text⟩
  unfold sumAmounts calculateTotalAmount
  simp only [List.foldl_cons, List.foldl_nil]
  rw [inner_foldl, zero_add]
  show jround2 (extractAmounts text).sum = _
  rw [extractAmounts_eq_map]

/-- Counterexample to C2: the claim characterizes the matches as whole
tokens "whose token boundaries are non-digit/non-dot characters", but the
regex uses word boundaries `\b`: in `"a12.34"` the token `12.34` is bounded
by the letter `a` (a non-digit/non-dot character), so the claim's reading
extracts `12.34`, while the code extracts nothing because `a1` contains no
word boundary. -/
theorem extract_boundary_counterexample :
    specExtractAmounts "a12.34" = [1234 / 100] ∧ extractAmounts "a12.34" = [] ∧
      specExtractAmounts "a12.34" ≠ extractAmounts "a12.34" := by
  refine ⟨by decide, by decide, by decide⟩

/-- C2 (amended): `extractAmounts` finds the matches of
`/\b\d+\.\d{1,4}\b/g` — maximal whole-number tokens whose neighbouring
characters are not word characters (letters, digits and underscores glue;
a dot is a permitted boundary) — left to right; in particular
`extractAmounts "Paid 12.34 and 0.5 today" = [12.34, 0.50]` in that order,
a letter- or underscore-adjacent token yields no match, a dot-adjacent one
does, and every returned amount comes from a matched token
`digits.digits(1..4)` within the accepted range, rounded to 2 places. -/
theorem extract_word_boundary :
    extractAmounts "Paid 12.34 and 0.5 today" = [1234 / 100, 1 / 2]
      ∧ extractAmounts "a12.34" = [] ∧ extractAmounts "_12.34" = []
      ∧ extractAmounts "x.12.34" = [1234 / 100]
      ∧ ∀ (s : String) (a : ℚ), a ∈ extractAmounts s →
          ∃ ds fs, (ds, fs) ∈ scanMatches s.data ∧ ds ≠ [] ∧ fs ≠ [] ∧ fs.length ≤ 4 ∧
            (∀ c ∈ ds, isDigitCh c = true) ∧ (∀ c ∈ fs, isDigitCh c = true) ∧
            0 < tokVal ds fs ∧ tokVal ds fs < 1000000 ∧ a = jround2 (tokVal ds fs) := by
  refine ⟨by decide, by decide, by decide, by decide, ?_⟩
  intro s a h
  exact extractAmounts_mem h

/-- Witness for the amended C2 at a concrete input. -/
theorem extract_word_boundary_witness :
    ∃ ds fs, (ds, fs) ∈ scanMatches ("Paid 12.34 and 0.5 today" : String).data ∧
      ds ≠ [] ∧ fs ≠ [] ∧ fs.length ≤ 4 ∧
      (∀ c ∈ ds, isDigitCh c = true) ∧ (∀ c ∈ fs, isDigitCh c = true) ∧
      0 < tokVal ds fs ∧ tokVal ds fs < 1000000 ∧
      (1234 / 100 : ℚ) = jround2 (tokVal ds fs) :=
  extract_word_boundary.2.2.2.2 "Paid 12.34 and 0.5 today" (1234 / 100) (by decide)

/-- Counterexample to C4: the kept amounts are not all strictly positive —
the range check is applied to the parsed value before rounding, so
`"0.001"` parses to `0.001 > 0`, is kept, and then rounds to `0`. -/
theorem extract_round_to_zero :
    extractAmounts "0.001" = [0] ∧ (0 : ℚ) ∈ extractAmounts "0.001" ∧ ¬ (0 : ℚ) < 0 := by
  refine ⟨by decide, by decide, by decide⟩

/-- C4 (amended): the `NaN` / `<= 0` / `>= 1,000,000` discard applies to
the parsed (pre-rounding) token value, so every kept amount is the
2-decimal rounding of a value in the open interval `(0, 1000000)` and
hence lies in the closed interval `[0, 1000000]`; in particular
`extractAmounts "999999.99 1000000.00 0.00" = [999999.99]`. -/
theorem extract_range :
    (∀ (s : String) (a : ℚ), a ∈ extractAmounts s → 0 ≤ a ∧ a ≤ 1000000)
      ∧ extractAmounts "999999.99 1000000.00 0.00" = [99999999 / 100] := by
  refine ⟨?_, by decide⟩
  intro s a h
  rcases extractAmounts_mem h with ⟨ds, fs, _, _, _, _, _, _, h0, h1, rfl⟩
  exact jround2_bounds h0 h1

/-- Witness for the amended C4 at a concrete input. -/
theorem extract_range_witness :
    0 ≤ (99999999 / 100 : ℚ) ∧ (99999999 / 100 : ℚ) ≤ 1000000 :=
  extract_range.1 "999999.99" (99999999 / 100) (by decide)

/-!  ## Lemmas about the payment summary aggregation (claims C1, C5, C10) -/

theorem jsAdd_num_inv {x y : JSNum} {r : ℚ} (h : jsAdd x y = JSNum.num r) :
    (∃ a, x = JSNum.num a) ∧ (∃ b, y = JSNum.num b) := by
  cases x <;> cases y <;> simp [jsAdd] at h <;> exact ⟨⟨_, rfl⟩, ⟨_, rfl⟩⟩

theorem foldl_jsAdd_fin : ∀ (l : List JSNum) (init : JSNum) (r : ℚ),
    l.foldl jsAdd init = JSNum.num r →
    (∃ qi, init = JSNum.num qi) ∧ ∀ a ∈ l, ∃ qa, a = JSNum.num qa := by
  intro l
  induction l with
  | nil => intro init r h; exact ⟨⟨r, h⟩, by simp⟩
  | cons x xs ih =>
    intro init r h
    rw [List.foldl_cons] at h
    obtain ⟨⟨m, hm⟩, hall⟩ := ih (jsAdd init x) r h
    obtain ⟨⟨qi, hqi⟩, ⟨qx, hqx⟩⟩ := jsAdd_num_inv hm
    refine ⟨⟨qi, hqi⟩, ?_⟩
    intro a ha
    rcases List.mem_cons.mp ha with rfl | ha'
    · exact ⟨qx, hqx⟩
    · exact hall a ha'

theorem foldl_pairs_snd (pairs : List (String × JSNum)) :
    ∀ init : JSNum,
      pairs.foldl (fun acc p => jsAdd acc p.2) init = (pairs.map Prod.snd).foldl jsAdd init := by
  induction pairs with
  | nil => intro init; rfl
  | cons p ps ih => intro init; simp only [List.map_cons, List.foldl_cons]; exact ih _

theorem addEntryB_fin {a : JSNum} {qa : ℚ} (ha : a = JSNum.num qa) :
    ∀ (ts : List (String × Bucket)) (k : String),
      (∀ r ∈ ts, ∃ q, r.2.amount = JSNum.num q) →
      ∀ r ∈ addEntryB ts k a, ∃ q, r.2.amount = JSNum.num q := by
  intro ts
  induction ts with
  | nil =>
    intro k _ r hr
    simp only [addEntryB, List.mem_singleton] at hr
    subst hr ha
    exact ⟨0 + qa, by simp [jsAdd]⟩
  | cons t ts' ih =>
    intro k hts r hr
    obtain ⟨k', b⟩ := t
    simp only [addEntryB] at hr
    by_cases hk : (k' == k) = true
    · rw [if_pos hk] at hr
      rcases List.mem_cons.mp hr with rfl | hr'
      · obtain ⟨qb, hqb⟩ := hts (k', b) (List.mem_cons_self _ _)
        subst ha
        exact ⟨qb + qa, by rw [show b.amount = JSNum.num qb from hqb]; rfl⟩
      · exact hts r (List.mem_cons_of_mem _ hr')
    · rw [if_neg hk] at hr
      rcases List.mem_cons.mp hr with rfl | hr'
      · exact hts (k', b) (List.mem_cons_self _ _)
      · exact ih k (fun r' hr'' => hts r' (List.mem_cons_of_mem _ hr'')) r hr'

theorem buildTotals_fin : ∀ (pairs : List (String × JSNum)) (ts : List (String × Bucket)),
    (∀ p ∈ pairs, ∃ q, p.2 = JSNum.num q) →
    (∀ r ∈ ts, ∃ q, r.2.amount = JSNum.num q) →
    ∀ r ∈ pairs.foldl (fun ts p => addEntryB ts p.1 p.2) ts, ∃ q, r.2.amount = JSNum.num q := by
  intro pairs
  induction pairs with
  | nil => intro ts _ hts r hr; exact hts r hr
  | cons p ps ih =>
    intro ts hp hts r hr
    rw [List.foldl_cons] at hr
    obtain ⟨qa, hqa⟩ := hp p (List.mem_cons_self _ _)
    exact ih _ (fun p' hp' => hp p' (List.mem_cons_of_mem _ hp'))
      (addEntryB_fin hqa ts p.1 hts) r hr

theorem mem_insertDesc {y x : Item} : ∀ l : List Item, y ∈ insertDesc x l ↔ y = x ∨ y ∈ l := by
  intro l
  induction l with
  | nil => simp [insertDesc]
  | cons z zs ih =>
    simp only [insertDesc]
    by_cases hz : jsLt z.amount x.amount = true
    · rw [if_pos hz]; simp [List.mem_cons]
    · rw [if_neg hz]; simp only [List.mem_cons, ih]; tauto

theorem mem_sortDesc_gen {y : Item} : ∀ (l acc : List Item),
    y ∈ l.foldl (fun acc x => insertDesc x acc) acc ↔ y ∈ acc ∨ y ∈ l := by
  intro l
  induction l with
  | nil => intro acc; simp
  | cons x xs ih =>
    intro acc
    rw [List.foldl_cons, ih, mem_insertDesc]
    simp only [List.mem_cons]
    tauto

theorem mem_sortDesc {y : Item} (l : List Item) : y ∈ sortDesc l ↔ y ∈ l := by
  unfold sortDesc; rw [mem_sortDesc_gen]; simp

theorem percent_div_zero (qb q : ℚ) :
    jsMul (jsDiv (JSNum.num qb) (JSNum.num 0)) (JSNum.num 100) ≠ JSNum.num q := by
  rcases lt_trichotomy qb 0 with h | h | h
  · have h1 : jsDiv (JSNum.num qb) (JSNum.num 0) = JSNum.negInf := by
      simp [jsDiv, h.ne, not_lt.mpr h.le]
    rw [h1]
    simp only [jsMul]
    rw [if_pos (by norm_num : (0 : ℚ) < 100)]
    simp
  · have h1 : jsDiv (JSNum.num qb) (JSNum.num 0) = JSNum.nan := by
      simp [jsDiv, h]
    rw [h1]
    simp [jsMul]
  · have h1 : jsDiv (JSNum.num qb) (JSNum.num 0) = JSNum.inf := by
      simp [jsDiv, h.ne', h]
    rw [h1]
    simp only [jsMul]
    rw [if_pos (by norm_num : (0 : ℚ) < 100)]
    simp

/-- Counterexample to C1: a record set whose grand total is 0 — here a
single record with a null amount — produces a bucket percentage of `NaN`
(the JS value of `0 / 0 * 100`), not the claimed `0`: there is no
`grandTotal == 0` special case in the code. -/
theorem percent_nan_counterexample :
    (paymentTotals [⟨some "BDO", JSVal.jnull⟩] "All").items.map Item.percentage = [JSNum.nan]
      ∧ JSNum.nan ≠ JSNum.num 0 := by
  exact ⟨by decide, by decide⟩

/-- C1 (amended): the aggregator computes
`percentage = bucketAmount / grandTotal * 100` with no zero guard; whenever
the (possibly filtered) view's grand total is `0`, every bucket's
percentage is one of the undefined values `NaN`, `Infinity`, `-Infinity` —
never a finite number, in particular never `0`. -/
theorem percent_undefined_when_grand_zero (entries : List Entry) (sel : String)
    (hg : (paymentTotals entries sel).grandTotal = JSNum.num 0) :
    ∀ it ∈ (paymentTotals entries sel).items, ∀ q : ℚ, it.percentage ≠ JSNum.num q := by
  intro it hit q
  simp only [paymentTotals] at hg hit
  rw [foldl_pairs_snd] at hg
  have hfin : ∀ p ∈ (filteredEntries entries sel).map (fun e => (typeKey e, parsedAmount e)),
      ∃ qa, p.2 = JSNum.num qa := by
    intro p hp
    exact (foldl_jsAdd_fin _ _ _ hg).2 p.2 (List.mem_map_of_mem _ hp)
  rw [mem_sortDesc] at hit
  rcases List.mem_map.mp hit with ⟨r, hr, rfl⟩
  obtain ⟨qb, hqb⟩ := buildTotals_fin _ [] hfin (by simp) r hr
  simp only [hqb]
  rw [show ((filteredEntries entries sel).map fun e => (typeKey e, parsedAmount e)).foldl
      (fun acc p => jsAdd acc p.2) (JSNum.num 0) = JSNum.num 0 from by rw [foldl_pairs_snd]; exact hg]
  exact percent_div_zero qb q

/-- Witness for the amended C1 at a concrete input. -/
theorem percent_undefined_witness :
    ({ type := "BDO", count := 1, amount := JSNum.num 0, percentage := JSNum.nan } : Item).percentage
      ≠ JSNum.num 0 :=
  percent_undefined_when_grand_zero [⟨some "BDO", JSVal.jnull⟩] "All" (by decide)
    { type := "BDO", count := 1, amount := JSNum.num 0, percentage := JSNum.nan } (by decide) 0

theorem build_const_key (k : String) : ∀ (ams : List JSNum) (b : Bucket),
    ((ams.map fun a => (k, a)).foldl (fun ts p => addEntryB ts p.1 p.2) [(k, b)])
      = [(k, ⟨b.count + ams.length, ams.foldl jsAdd b.amount⟩)] := by
  intro ams
  induction ams with
  | nil => intro b; rfl
  | cons a rest ih =>
    intro b
    simp only [List.map_cons, List.foldl_cons, List.length_cons]
    rw [show addEntryB [(k, b)] k a = [(k, ⟨b.count + 1, jsAdd b.amount a⟩)] from by
      simp [addEntryB]]
    rw [ih]
    simp only [List.foldl_cons]
    have harith : b.count + 1 + rest.length = b.count + (rest.length + 1) := by omega
    rw [harith]

theorem sortDesc_single (x : Item) : sortDesc [x] = [x] := rfl

theorem mapCongrMem {α β : Type} {f g : α → β} :
    ∀ l : List α, (∀ a ∈ l, f a = g a) → l.map f = l.map g := by
  intro l
  induction l with
  | nil => intro _; rfl
  | cons a as ih =>
    intro h
    simp only [List.map_cons]
    rw [h a (List.mem_cons_self _ _), ih fun a' ha' => h a' (List.mem_cons_of_mem _ ha')]

theorem foldl_snd_map (k : String) : ∀ (ams : List JSNum) (init : JSNum),
    ((ams.map fun a => (k, a)).foldl (fun acc p => jsAdd acc p.2) init)
      = ams.foldl jsAdd init := by
  intro ams
  induction ams with
  | nil => intro init; rfl
  | cons a rest ih => intro init; simp only [List.map_cons, List.foldl_cons]; exact ih _

/-- Counterexample to C5: filtering to one payment type whose records all
have null (i.e. zero) amounts gives a subset grand total of 0, and the
single payment-type row's percentage is `NaN`, not the claimed 100%. -/
theorem filter_percent_nan_counterexample :
    (paymentTotals [⟨some "BDO", JSVal.jnull⟩] "BDO").items.map Item.percentage = [JSNum.nan]
      ∧ JSNum.nan ≠ JSNum.num 100 := by
  exact ⟨by decide, by decide⟩

/-- C5 (amended): when the aggregation is filtered to one payment type,
counts, totals and percentages are recomputed over only the matching
records, with percentages relative to that subset's own grand total (the
"All" filter being the unfiltered case): the filtered computation equals
the unfiltered computation on the pre-filtered list, and — provided the
subset's grand total is a nonzero number (with a zero subtotal the row
shows `NaN`, as in C1) — the filtered view has exactly one payment-type
row whose percentage is exactly 100. -/
theorem filter_changes_denominator :
    (∀ (entries : List Entry) (sel : String), sel ≠ "All" →
        paymentTotals entries sel
          = paymentTotals (entries.filter fun e => e.paymentType == some sel) "All")
      ∧ ∀ (entries : List Entry) (sel : String) (g : ℚ), sel ≠ "All" → sel ≠ "" →
          (paymentTotals entries sel).grandTotal = JSNum.num g → g ≠ 0 →
          (paymentTotals entries sel).items.map Item.percentage = [JSNum.num 100] := by
  constructor
  · intro entries sel hsel
    have h1 : (sel == "All") = false := beq_eq_false_iff_ne.mpr hsel
    have h2 : entries.filter (fun e => match e.paymentType with | some s => s == sel | none => false)
        = entries.filter (fun e => e.paymentType == some sel) := by
      apply List.filter_congr
      intro e _
      cases e.paymentType <;> rfl
    simp only [paymentTotals, filteredEntries, h1, Bool.false_eq_true, if_false,
      beq_self_eq_true, if_true]
    rw [h2]
  · intro entries sel g hsel hne hg h0
    have h1 : (sel == "All") = false := beq_eq_false_iff_ne.mpr hsel
    have h2 : (sel == "") = false := beq_eq_false_iff_ne.mpr hne
    simp only [paymentTotals, filteredEntries, h1, Bool.false_eq_true, if_false] at hg ⊢
    have hall : ∀ e ∈ entries.filter
        (fun e => match e.paymentType with | some s => s == sel | none => false),
        e.paymentType = some sel := by
      intro e he
      have hmem := (List.mem_filter.mp he).2
      cases hpt : e.paymentType with
      | none => rw [hpt] at hmem; exact absurd hmem (by simp)
      | some s =>
        rw [hpt] at hmem
        have hs : s = sel := by simpa using hmem
        simp [hpt, hs]
    have hmap : (entries.filter
          (fun e => match e.paymentType with | some s => s == sel | none => false)).map
            (fun e => (typeKey e, parsedAmount e))
        = ((entries.filter
            (fun e => match e.paymentType with | some s => s == sel | none => false)).map
              parsedAmount).map (fun a => (sel, a)) := by
      rw [List.map_map]
      apply mapCongrMem
      intro e he
      have hpt := hall e he
      simp [typeKey, hpt, h2, Function.comp]
    rw [hmap] at hg ⊢
    rw [foldl_snd_map] at hg ⊢
    cases hams : (entries.filter
        (fun e => match e.paymentType with | some s => s == sel | none => false)).map
          parsedAmount with
    | nil =>
      rw [hams] at hg
      simp only [List.foldl_nil, JSNum.num.injEq] at hg
      exact absurd hg.symm h0
    | cons a rest =>
      rw [hams] at hg
      rw [List.foldl_cons] at hg ⊢
      simp only [List.map_cons, List.foldl_cons]
      rw [show addEntryB [] sel a = [(sel, ⟨0 + 1, jsAdd (JSNum.num 0) a⟩)] from rfl]
      rw [build_const_key]
      rw [hg]
      simp only [sortDesc_single, List.map_cons, List.map_nil]
      rw [show jsDiv (JSNum.num g) (JSNum.num g) = JSNum.num (g / g) from by
        simp only [jsDiv]; rw [if_neg h0]]
      rw [div_self h0]
      rw [show jsMul (JSNum.num 1) (JSNum.num 100) = JSNum.num 100 from by
        simp [jsMul]]

/-- Witness for the amended C5 at a concrete input: a single BDO entry of
amount `"5.00"` filtered to `"BDO"` has percentage exactly 100. -/
theorem filter_changes_denominator_witness :
    (paymentTotals [⟨some "BDO", JSVal.jstr "5.00"⟩] "BDO").items.map Item.percentage
        = [JSNum.num 100]
      ∧ paymentTotals [⟨some "BDO", JSVal.jstr "5.00"⟩, ⟨some "LBC", JSVal.jstr "3.00"⟩] "BDO"
        = paymentTotals
            ([⟨some "BDO", JSVal.jstr "5.00"⟩, ⟨some "LBC", JSVal.jstr "3.00"⟩].filter
              fun e => e.paymentType == some "BDO") "All" :=
  ⟨filter_changes_denominator.2 [⟨some "BDO", JSVal.jstr "5.00"⟩] "BDO" 5 (by decide) (by decide)
      (by decide) (by norm_num),
    filter_changes_denominator.1 _ "BDO" (by decide)⟩

/-- C10 (implicit): filtering the summary to the `"Unknown"` payment type
uses strict equality, so it selects only entries whose `paymentType` field
is the literal string `"Unknown"`; an entry with a null payment type is
excluded from the `"Unknown"`-filtered view even though the unfiltered
"All" view buckets that same entry under `"Unknown"` via the
`|| 'Unknown'` fallback. -/
theorem unknown_filter_strict :
    (∀ l : List Entry, filteredEntries l "Unknown"
        = l.filter fun e => e.paymentType == some "Unknown")
      ∧ (paymentTotals [⟨none, JSVal.jstr "5.00"⟩] "All").items.map Item.type = ["Unknown"]
      ∧ paymentTotals [⟨none, JSVal.jstr "5.00"⟩] "Unknown" = ⟨[], JSNum.num 0⟩ := by
  refine ⟨?_, by decide, by decide⟩
  intro l
  rw [filteredEntries, if_neg (by decide)]
  apply List.filter_congr
  intro e _
  cases e.paymentType <;> rfl

/-!  ## Lemmas about the currency formatters (claims C6, C8, C9) -/

theorem digit_facts {c : Char} (h : isDigitCh c = true) :
    jsSpace c = false ∧ c ≠ '₱' ∧ c ≠ ',' ∧ c ≠ '.' ∧ c ≠ '-' ∧ c ≠ '+' ∧ c ≠ 'I' ∧
      c ≠ 'e' ∧ c ≠ 'E' ∧ isWordCh c = true := by
  have hm : c ∈ digitChars := by
    have h' : digitChars.elem c = true := h
    exact List.mem_of_elem_eq_true h'
  fin_cases hm <;> exact ⟨by decide, by decide, by decide, by decide, by decide, by decide,
    by decide, by decide, by decide, by decide⟩

theorem dropTrail_id {l : List Char} (h : ∀ c ∈ l, jsSpace c = false) : dropTrail l = l := by
  induction l with
  | nil => rfl
  | cons c cs ih =>
    rw [dropTrail_cons]
    have hc : jsSpace c = false := h c (List.mem_cons_self _ _)
    rw [if_neg (by simp [hc])]
    rw [ih fun c' hc' => h c' (List.mem_cons_of_mem _ hc')]

theorem jsTrimList_id {l : List Char} (h : ∀ c ∈ l, jsSpace c = false) : jsTrimList l = l := by
  unfold jsTrimList
  have h1 : l.dropWhile jsSpace = l := by
    cases l with
    | nil => rfl
    | cons c cs =>
      rw [List.dropWhile_cons, if_neg (by simp [h c (List.mem_cons_self _ _)])]
  rw [h1, dropTrail_id h]

theorem stripDT_id {l : List Char}
    (h : ∀ c ∈ l, jsSpace c = false ∧ c ≠ '₱' ∧ c ≠ ',') :
    stripDT (String.mk l) = String.mk l := by
  unfold stripDT
  rw [show (String.mk l).data = l from rfl]
  rw [jsTrimList_id fun c hc => (h c hc).1]
  rw [List.filter_eq_self.mpr]
  intro c hc
  obtain ⟨h1, h2, h3⟩ := h c hc
  simp [h1, h2, h3]

theorem stripSummary_id {l : List Char} (h : ∀ c ∈ l, c ≠ '₱' ∧ c ≠ ',') :
    stripSummary (String.mk l) = String.mk l := by
  unfold stripSummary
  rw [show (String.mk l).data = l from rfl]
  rw [List.filter_eq_self.mpr]
  intro c hc
  obtain ⟨h2, h3⟩ := h c hc
  simp [h2, h3]

theorem takeWhile_all {p : Char → Bool} :
    ∀ l : List Char, (∀ c ∈ l, p c = true) → (l.takeWhile p = l ∧ l.dropWhile p = []) := by
  intro l
  induction l with
  | nil => intro _; exact ⟨rfl, rfl⟩
  | cons c cs ih =>
    intro h
    have hc := h c (List.mem_cons_self _ _)
    obtain ⟨h1, h2⟩ := ih fun c' hc' => h c' (List.mem_cons_of_mem _ hc')
    constructor
    · rw [List.takeWhile_cons, if_pos hc, h1]
    · rw [List.dropWhile_cons, if_pos hc, h2]

theorem takeWhile_all_append {p : Char → Bool} :
    ∀ (a : List Char), (∀ c ∈ a, p c = true) → ∀ (x : Char), p x = false → ∀ b : List Char,
      ((a ++ x :: b).takeWhile p = a ∧ (a ++ x :: b).dropWhile p = x :: b) := by
  intro a
  induction a with
  | nil =>
    intro _ x hx b
    constructor
    · rw [List.nil_append, List.takeWhile_cons, if_neg (by simp [hx])]
    · rw [List.nil_append, List.dropWhile_cons, if_neg (by simp [hx])]
  | cons c cs ih =>
    intro h x hx b
    have hc := h c (List.mem_cons_self _ _)
    obtain ⟨h1, h2⟩ := ih (fun c' hc' => h c' (List.mem_cons_of_mem _ hc')) x hx b
    constructor
    · rw [List.cons_append, List.takeWhile_cons, if_pos hc, h1]
    · rw [List.cons_append, List.dropWhile_cons, if_pos hc, h2]

theorem parseDec_canonical {ds fs : List Char} (hds : ds ≠ []) (hfs : fs ≠ [])
    (h1 : ∀ c ∈ ds, isDigitCh c = true) (h2 : ∀ c ∈ fs, isDigitCh c = true) :
    parseDec (ds ++ '.' :: fs) = JSNum.num (tokVal ds fs) := by
  obtain ⟨ht, hd⟩ := takeWhile_all_append ds h1 '.' (by decide) fs
  obtain ⟨ht2, hd2⟩ := takeWhile_all fs h2
  simp only [parseDec, ht, hd]
  rw [if_pos (by simp : ('.' :: fs).head?  = some '.'),
    if_pos (by simp : ('.' :: fs).head?  = some '.')]
  simp only [List.drop_one, List.tail_cons, ht2, hd2]
  rw [if_neg (by simp [hds])]
  rw [if_neg (by simp : ¬ (([] : List Char).head? = some 'e' ∨ ([] : List Char).head? = some 'E'))]
  rw [zpow_zero, mul_one]
  rfl

theorem jsParseFloat_canonical {ds fs : List Char} (hds : ds ≠ []) (hfs : fs ≠ [])
    (h1 : ∀ c ∈ ds, isDigitCh c = true) (h2 : ∀ c ∈ fs, isDigitCh c = true) :
    jsParseFloat (String.mk (ds ++ '.' :: fs)) = JSNum.num (tokVal ds fs) := by
  obtain ⟨d, ds', rfl⟩ : ∃ d ds', ds = d :: ds' := by
    cases ds with
    | nil => exact absurd rfl hds
    | cons d ds' => exact ⟨d, ds', rfl⟩
  have hd := digit_facts (h1 d (List.mem_cons_self _ _))
  have hdata : (String.mk ((d :: ds') ++ '.' :: fs)).data = d :: (ds' ++ '.' :: fs) := rfl
  have hdw : List.dropWhile jsSpace (d :: (ds' ++ '.' :: fs)) = d :: (ds' ++ '.' :: fs) := by
    rw [List.dropWhile_cons, if_neg (by simp [hd.1])]
  simp only [jsParseFloat, List.cons_append, hdw, List.head?_cons]
  have hsign : ¬((some d : Option Char) = some '-' ∨ (some d : Option Char) = some '+') := by
    rintro (h | h)
    · exact hd.2.2.2.2.1 (Option.some_inj.mp h)
    · exact hd.2.2.2.2.2.1 (Option.some_inj.mp h)
  rw [if_neg hsign]
  rw [if_neg (by
    intro heq
    have hdI : d = 'I' := by
      have h8 : (d :: (ds' ++ '.' :: fs)).take 8 = 'I' :: "nfinity".data := heq
      simpa using congrArg List.head? h8
    exact hd.2.2.2.2.2.2.1 hdI)]
  rw [← List.cons_append]
  rw [parseDec_canonical hds hfs h1 h2]
  rw [show (decide ((some d : Option Char) = some '-')) = false from
    decide_eq_false (by simp [hd.2.2.2.2.1])]
  simp

theorem length_fracDigitsFixed : ∀ (d n : ℕ), (fracDigitsFixed d n).length = d := by
  intro d
  induction d with
  | zero => intro n; rfl
  | succ k ih => intro n; simp [fracDigitsFixed, ih]

theorem natDigitsAux_digits : ∀ (fuel n : ℕ), ∀ c ∈ natDigitsAux fuel n,
    ∃ k, k < 10 ∧ c = digitChar k := by
  intro fuel
  induction fuel with
  | zero => intro n c h; simp [natDigitsAux] at h
  | succ m ih =>
    intro n c h
    simp only [natDigitsAux] at h
    by_cases hn : n < 10
    · rw [if_pos hn] at h
      simp at h
      exact ⟨n, hn, h⟩
    · rw [if_neg hn] at h
      rcases List.mem_append.mp h with h' | h'
      · exact ih _ c h'
      · simp at h'
        exact ⟨n % 10, Nat.mod_lt _ (by norm_num), h'⟩

theorem digitChar_ne_dot {k : ℕ} (hk : k < 10) : (digitChar k == '.') = false := by
  interval_cases k <;> decide

theorem mem_group3Aux : ∀ (l : List Char) (c : Char), c ∈ group3Aux l → c ∈ l ∨ c = ','
  | [], c, h => Or.inl (by simpa [group3Aux] using h)
  | [d1], c, h => Or.inl (by simpa [group3Aux] using h)
  | [d1, d2], c, h => Or.inl (by simpa [group3Aux] using h)
  | [d1, d2, d3], c, h => Or.inl (by simpa [group3Aux] using h)
  | d1 :: d2 :: d3 :: d4 :: rest, c, h => by
    simp only [group3Aux] at h
    rcases List.mem_cons.mp h with rfl | h
    · exact Or.inl (by simp)
    rcases List.mem_cons.mp h with rfl | h
    · exact Or.inl (by simp)
    rcases List.mem_cons.mp h with rfl | h
    · exact Or.inl (by simp)
    rcases List.mem_cons.mp h with rfl | h
    · exact Or.inr rfl
    · rcases mem_group3Aux (d4 :: rest) c h with h' | h'
      · rcases List.mem_cons.mp h' with rfl | h''
        · exact Or.inl (by simp)
        · exact Or.inl (by simp [List.mem_cons, h''])
      · exact Or.inr h'

theorem mem_groupDigits {c : Char} {l : List Char} (h : c ∈ groupDigits l) :
    c ∈ l ∨ c = ',' := by
  unfold groupDigits at h
  have h1 := List.mem_reverse.mp h
  rcases mem_group3Aux _ c h1 with h' | h'
  · exact Or.inl (List.mem_reverse.mp h')
  · exact Or.inr h'

theorem natDigits_no_dot {n : ℕ} : ∀ c ∈ natDigits n, (c == '.') = false := by
  intro c hc
  obtain ⟨k, hk, rfl⟩ := natDigitsAux_digits _ _ c hc
  exact digitChar_ne_dot hk

theorem groupDigits_no_dot {n : ℕ} : ∀ c ∈ groupDigits (natDigits n), (c == '.') = false := by
  intro c hc
  rcases mem_groupDigits hc with h | rfl
  · exact natDigits_no_dot c h
  · decide

theorem sign_no_dot (q : ℚ) :
    ∀ c ∈ (if q < 0 then ['-'] else ([] : List Char)), (c == '.') = false := by
  intro c hc
  by_cases h : q < 0
  · rw [if_pos h] at hc
    simp at hc
    subst hc
    decide
  · rw [if_neg h] at hc
    simp at hc

theorem countFrac_after (pre frac : List Char) (hpre : ∀ c ∈ pre, (c == '.') = false) :
    countFracDigits (String.mk (pre ++ '.' :: frac)) = frac.length := by
  unfold countFracDigits
  rw [show (String.mk (pre ++ '.' :: frac)).data = pre ++ '.' :: frac from rfl]
  have hstep := takeWhile_all_append (p := fun c => !(c == '.')) pre
    (fun c hc => by simp [hpre c hc]) '.' (by decide) frac
  rw [hstep.2]
  simp

theorem countFrac_phpGrouped (q : ℚ) (d : ℕ) (hd : 1 ≤ d) :
    countFracDigits ("₱" ++ fmtGrouped (JSNum.num q) d) = d := by
  have key : ∀ S G F : List Char, (∀ c ∈ S, (c == '.') = false) →
      (∀ c ∈ G, (c == '.') = false) → F.length = d →
      countFracDigits ("₱" ++ String.mk (S ++ (G ++ '.' :: F))) = d := by
    intro S G F hS hG hF
    rw [show ("₱" ++ String.mk (S ++ (G ++ '.' :: F)))
        = String.mk ('₱' :: (S ++ (G ++ '.' :: F))) from rfl]
    rw [show ('₱' :: (S ++ (G ++ '.' :: F))) = (('₱' :: (S ++ G)) ++ '.' :: F) from by simp]
    refine (countFrac_after _ _ ?_).trans hF
    intro c hc
    rcases List.mem_cons.mp hc with rfl | hc
    · decide
    rcases List.mem_append.mp hc with hc | hc
    · exact hS c hc
    · exact hG c hc
  simp only [fmtGrouped, fmtAbs]
  rw [if_neg (by omega : ¬d = 0)]
  exact key _ _ _ (sign_no_dot q) groupDigits_no_dot (length_fracDigitsFixed d _)

theorem countFrac_currency (q : ℚ) : countFracDigits (fmtCurrencyPHP (JSNum.num q)) = 2 := by
  have key : ∀ S G F : List Char, (∀ c ∈ S, (c == '.') = false) →
      (∀ c ∈ G, (c == '.') = false) → F.length = 2 →
      countFracDigits (String.mk (S ++ '₱' :: (G ++ '.' :: F))) = 2 := by
    intro S G F hS hG hF
    rw [show (S ++ '₱' :: (G ++ '.' :: F)) = ((S ++ '₱' :: G) ++ '.' :: F) from by simp]
    refine (countFrac_after _ _ ?_).trans hF
    intro c hc
    rcases List.mem_append.mp hc with hc | hc
    · exact hS c hc
    rcases List.mem_cons.mp hc with rfl | hc
    · decide
    · exact hG c hc
  simp only [fmtCurrencyPHP, fmtAbs]
  rw [if_neg (by norm_num : ¬(2 : ℕ) = 0)]
  exact key _ _ _ (sign_no_dot q) groupDigits_no_dot (length_fracDigitsFixed 2 _)

theorem splitDot1_canonical {ds fs : List Char}
    (h1 : ∀ c ∈ ds, isDigitCh c = true) (h2 : ∀ c ∈ fs, isDigitCh c = true) :
    splitDot1 (ds ++ '.' :: fs) = fs := by
  unfold splitDot1
  obtain ⟨_, hdw⟩ := takeWhile_all_append (p := fun c => !(c == '.')) ds
    (fun c hc => by simp [(digit_facts (h1 c hc)).2.2.2.1]) '.' (by decide) fs
  rw [hdw]
  simp only [List.drop_one, List.tail_cons]
  exact (takeWhile_all fs fun c hc => by simp [(digit_facts (h2 c hc)).2.2.2.1]).1

/-- Counterexample to C6: the Summary formatter (`Summary.jsx` lines 23-37),
one of the two cited currency formatters, always renders 2 decimal places:
the amount string `"5.1"` (1 fractional digit) renders as `"₱5.10"` with 2
decimal places, not 1. -/
theorem summary_fixed_two_decimals :
    sumFormatAmount (JSVal.jstr "5.1") = "₱5.10"
      ∧ countFracDigits (sumFormatAmount (JSVal.jstr "5.1")) = 2 :=
  ⟨by decide, by decide⟩

/-- C6 (amended): only the DataTable formatter (`DataTable.jsx` lines
26-70) preserves the source precision, and only up to the 20 fraction
digits `toLocaleString` accepts: for every well-formed decimal string
`digits.digits` with `k ≤ 20` fractional digits it renders exactly `k`
decimal places (k = 1 → 1, k = 2 → standard 2-decimal currency, 3..20 → k);
the Summary formatter always renders exactly 2 decimal places. -/
theorem format_precision (ds fs : List Char) (hds : ds ≠ []) (hfs : fs ≠ [])
    (hlen : fs.length ≤ 20)
    (h1 : ∀ c ∈ ds, isDigitCh c = true) (h2 : ∀ c ∈ fs, isDigitCh c = true) :
    countFracDigits (dtFormatAmount (JSVal.jstr (String.mk (ds ++ '.' :: fs)))) = fs.length
      ∧ countFracDigits (sumFormatAmount (JSVal.jstr (String.mk (ds ++ '.' :: fs)))) = 2 := by
  have hchar : ∀ c ∈ ds ++ '.' :: fs, jsSpace c = false ∧ c ≠ '₱' ∧ c ≠ ',' := by
    intro c hc
    rcases List.mem_append.mp hc with hc | hc
    · have h := digit_facts (h1 c hc)
      exact ⟨h.1, h.2.1, h.2.2.1⟩
    · rcases List.mem_cons.mp hc with rfl | hc
      · exact ⟨by decide, by decide, by decide⟩
      · have h := digit_facts (h2 c hc)
        exact ⟨h.1, h.2.1, h.2.2.1⟩
  have hne : ¬(String.mk (ds ++ '.' :: fs) = "") := by
    obtain ⟨d, t, rfl⟩ : ∃ d t, ds = d :: t := by
      cases ds with
      | nil => exact absurd rfl hds
      | cons d t => exact ⟨d, t, rfl⟩
    intro heq
    have hdata := congrArg String.data heq
    simp at hdata
  have hfalsy : jsFalsy (JSVal.jstr (String.mk (ds ++ '.' :: fs))) = false := by
    simp [jsFalsy, hne]
  have hparse := jsParseFloat_canonical hds hfs h1 h2
  have hmemdot : '.' ∈ (String.mk (ds ++ '.' :: fs)).data := by
    rw [show (String.mk (ds ++ '.' :: fs)).data = ds ++ '.' :: fs from rfl]
    exact List.mem_append.mpr (Or.inr (List.mem_cons_self _ _))
  have hlenpos : 1 ≤ fs.length := List.length_pos.mpr hfs
  constructor
  · have hstrip : stripDT (String.mk (ds ++ '.' :: fs)) = String.mk (ds ++ '.' :: fs) :=
      stripDT_id hchar
    simp only [dtFormatAmount, jsToString, hfalsy, Bool.false_eq_true, if_false, hstrip, hparse]
    rw [if_neg (by simp : ¬JSNum.num (tokVal ds fs) = JSNum.nan)]
    rw [if_pos hmemdot]
    rw [splitDot1_canonical h1 h2]
    by_cases e1 : fs.length = 1
    · rw [if_pos e1, e1]
      exact countFrac_phpGrouped _ 1 le_rfl
    · by_cases e2 : fs.length = 2
      · rw [if_neg e1, if_pos e2, e2]
        exact countFrac_currency _
      · rw [if_neg e1, if_neg e2, if_pos hlen]
        exact countFrac_phpGrouped _ _ hlenpos
  · have hstrip : stripSummary (String.mk (ds ++ '.' :: fs)) = String.mk (ds ++ '.' :: fs) :=
      stripSummary_id fun c hc => ⟨(hchar c hc).2.1, (hchar c hc).2.2⟩
    simp only [sumFormatAmount, hfalsy, Bool.false_eq_true, if_false, hstrip, hparse]
    exact countFrac_currency _

/-- Witness for the amended C6 at the concrete input `"5.123"`. -/
theorem format_precision_witness :
    countFracDigits (dtFormatAmount (JSVal.jstr (String.mk (['5'] ++ '.' :: ['1', '2', '3'])))) = 3
      ∧ countFracDigits (sumFormatAmount (JSVal.jstr (String.mk (['5'] ++ '.' :: ['1', '2', '3'])))) = 2 :=
  format_precision ['5'] ['1', '2', '3'] (by decide) (by decide) (by decide)
    (by decide) (by decide)

/-- C8: `isAmount` of `DataTable.jsx` strips currency symbols, commas and
whitespace from the (trimmed) value and accepts exactly when the ENTIRE
remaining string matches `\d+\.\d+`; in particular
`isAmount("₱1,234.50") = true` and `isAmount("1234") = false` (no decimal
point). -/
theorem isAmount_full_match :
    (∀ s : String, isAmount (JSVal.jstr s) = amountShape (stripDT s).data)
      ∧ isAmount (JSVal.jstr "₱1,234.50") = true
      ∧ isAmount (JSVal.jstr "1234") = false := by
  refine ⟨?_, by decide, by decide⟩
  intro s
  by_cases h : s = ""
  · subst h; decide
  · unfold isAmount
    rw [if_neg (by simp [jsFalsy, h])]
    rfl

/-- C9 evaluation: on the non-numeric amount string `"abc"`, the Summary
formatter returns `"₱NaN"` — `Intl.NumberFormat(...).format(NaN)` does not
throw, and the `isNaN` guard present in the DataTable formatter is missing
in the Summary one, which therefore does not return the documented safe
default `"₱0.00"`; the DataTable formatter does. -/
theorem summary_format_nan_divergence :
    sumFormatAmount (JSVal.jstr "abc") = "₱NaN"
      ∧ dtFormatAmount (JSVal.jstr "abc") = "₱0.00" :=
  ⟨by decide, by decide⟩

end Splitter
